import Mathlib

/-!
Verification of the autorust OpenAPI code generator.

This file is a shallow embedding, in Lean 4, of the parts of the autorust
repository that the verified claims are about.  The repository holds two
crates:

* `src/src` — the `autorust` crate (`codegen.rs`, `reference.rs`, `spec.rs`,
  `path.rs`), embedded below in namespace `Src`;
* `src/codegen` — the `autorust_codegen` crate (`spec.rs`, `path.rs`),
  embedded below in namespace `Cg`.

Shared data types of the `autorust_openapi` dependency (`OpenAPI`, `Schema`,
`Reference`, ...) live in namespace `OA`, parameterised by the representation
`R` of a `$ref` (the `autorust` crate stores raw `String`s, the
`autorust_codegen` crate stores parsed `OA.Reference` values).

Case conversion (`heck` crate, version 0.3: `to_snake_case`,
`to_camel_case`) is embedded in namespace `Heck` for ASCII characters, which
covers every identifier the claims touch.

Rust `panic!`/`unwrap` aborts are modelled as `Option.none` (for `ident`,
which has no error channel in the source) or as a dedicated `abort` error
constructor; `Result` values are modelled with `Except`.
-/

namespace Heck

/-- The word-scanning mode of heck 0.3's `transform` function. -/
inductive WMode where
  | boundary
  | lower
  | upper
deriving DecidableEq, Repr

/-- Generic split on a separator predicate, keeping empty pieces
(so splitting `"a--b"` on `-` gives `["a", "", "b"]`). -/
def splitByPred {α : Type} (p : α → Bool) : List α → List (List α)
  | [] => [[]]
  | c :: rest =>
    let r := splitByPred p rest
    if p c then [] :: r
    else
      match r with
      | [] => [[c]]
      | h :: t => (c :: h) :: t

/-- A character that is always part of a unicode word: alphanumeric or `_`
(ExtendNumLet).  ASCII approximation of UAX#29 as used by heck 0.3's
`unicode_words`. -/
def isWordChar (c : Char) : Bool :=
  c.isAlphanum || c = '_'

/-- Marks each character as kept inside a word.  A `.` (MidNumLet) is kept
only between two alphanumerics, like in `odata.nextLink`; every other
non-word character separates words.  ASCII approximation of UAX#29 word
segmentation; mid-letter apostrophes and colons are not modelled (they never
occur in the identifiers this code generator handles). -/
def keepMask (prev : Option Char) : List Char → List Bool
  | [] => []
  | c :: rest =>
    let keep := isWordChar c ||
      (c = '.' && (match prev with | some p => p.isAlphanum | none => false) &&
        (match rest.head? with | some n => n.isAlphanum | none => false))
    keep :: keepMask (some c) rest

/-- `unicode_words` of heck 0.3 (ASCII approximation): maximal runs of kept
characters, keeping only runs that contain an alphanumeric. -/
def uwords (cs : List Char) : List (List Char) :=
  (((splitByPred (fun p : Char × Bool => !p.2) (cs.zip (keepMask none cs))).map
      (List.map Prod.fst)).filter (fun w => w.any Char.isAlphanum))

/-- The per-word scanning loop of heck 0.3's `transform`: skips `_`
characters, and cuts a word into sub-words before an `_`, at a
lowercase→uppercase transition, and before the last uppercase of an uppercase
run followed by a lowercase. -/
def heckGo : WMode → List Char → List Char → List (List Char)
  | _, _, [] => []
  | _, acc, [c] =>
    if c = '_' then (if acc.isEmpty then [] else [acc])
    else [acc ++ [c]]
  | mode, acc, c :: next :: rest =>
    if c = '_' then heckGo mode acc (next :: rest)
    else
      let nextMode : WMode := if c.isLower then .lower else if c.isUpper then .upper else mode
      if next = '_' ∨ (nextMode = WMode.lower ∧ next.isUpper) then
        (acc ++ [c]) :: heckGo .boundary [] (next :: rest)
      else if mode = WMode.upper ∧ c.isUpper ∧ next.isLower then
        acc :: heckGo .boundary [c] (next :: rest)
      else
        heckGo nextMode (acc ++ [c]) (next :: rest)

/-- All sub-words of a string, in order: unicode-word segmentation, then the
case-boundary scan of each word (heck 0.3 `transform`). -/
def words (s : String) : List (List Char) :=
  (uwords s.data).flatMap (heckGo .boundary [])

/-- Join character lists with a separator character. -/
def joinChar (sep : Char) : List (List Char) → List Char
  | [] => []
  | [w] => w
  | w :: w2 :: rest => w ++ sep :: joinChar sep (w2 :: rest)

/-- heck 0.3 `to_snake_case`: lowercase every sub-word and join with `_`. -/
def toSnakeCase (s : String) : String :=
  String.mk (joinChar '_' ((words s).map (List.map Char.toLower)))

/-- heck 0.3's `capitalize`: uppercase the first character of a word,
lowercase the rest. -/
def capitalizeWord : List Char → List Char
  | [] => []
  | c :: rest => c.toUpper :: rest.map Char.toLower

/-- heck 0.3 `to_camel_case`: capitalize every sub-word and concatenate. -/
def toCamelCase (s : String) : String :=
  String.mk (List.flatten ((words s).map capitalizeWord))

end Heck

/-- Insert into an association list with the `IndexMap::insert` semantics of
the source: if the key is present, the value is replaced in place; otherwise
the pair is appended at the end. -/
def insertEntry {κ β : Type} [DecidableEq κ] : List (κ × β) → κ → β → List (κ × β)
  | [], k, b => [(k, b)]
  | (k', b') :: rest, k, b =>
    if k' = k then (k', b) :: rest else (k', b') :: insertEntry rest k b

/-- Lookup in an association list (`IndexMap::get`). -/
def lookupEntry {κ β : Type} [DecidableEq κ] : List (κ × β) → κ → Option β
  | [], _ => none
  | (k', b') :: rest, k => if k' = k then some b' else lookupEntry rest k

/-- Insert into an order-preserving set (`IndexSet::insert`): appended only
when absent. -/
def dedupInsert {α : Type} [DecidableEq α] (l : List α) (a : α) : List α :=
  if a ∈ l then l else l ++ [a]

/-- Collect a list into an order-preserving set (`IndexSet` `collect`). -/
def dedupList {α : Type} [DecidableEq α] (l : List α) : List α :=
  l.foldl dedupInsert []

/-- Rust `str::split(sep)` on a character list: always at least one piece,
empty pieces kept. -/
def splitChar (sep : Char) : List Char → List (List Char)
  | [] => [[]]
  | c :: rest =>
    let r := splitChar sep rest
    if c = sep then [] :: r
    else
      match r with
      | [] => [[c]]
      | h :: t => (c :: h) :: t

namespace OA

/-- A path, as a list of components (Rust `PathBuf`, already split into
normal components; `.` and empty components are dropped at parse time, `..`
components are kept).  Absolute-path roots are not modelled: the generator
only ever handles relative repository paths. -/
abbrev Path := List String

/-- `autorust_openapi::Reference`: a parsed `$ref`, as used by the
`autorust_codegen` crate. -/
structure Reference where
  file : Option String
  path : List String
  name : Option String
deriving DecidableEq, Repr

/-- OpenAPI `type` values (`autorust_openapi::DataType`). -/
inductive DataType where
  | string
  | number
  | integer
  | boolean
  | array
  | object
deriving DecidableEq, Repr

/-- `serde_json::Value`, restricted to what enum literals use.  Floating
point payloads are out of scope; a JSON number is carried as an integer,
which is irrelevant to every claim (only the string / non-string distinction
matters). -/
inductive Value where
  | str (s : String)
  | num (n : Int)
  | bool (b : Bool)
  | null
deriving DecidableEq, Repr

/-- Whether a JSON value is a string. -/
def Value.isStr : Value → Bool
  | .str _ => true
  | _ => false

mutual

/-- `autorust_openapi::Schema`, over the `$ref` representation `R`.  The
`common` (`SchemaCommon`) fields `type_`, `format`, `description`, `items`
and `enum_` are flattened into the structure.  Fields the embedded functions
never read (`title`, `example`, ...) are omitted. -/
inductive Schema (R : Type) where
  | mk (type_ : Option DataType)
       (format : Option String)
       (description : Option String)
       (items : Option (RefOrSchema R))
       (enum_ : List Value)
       (required : List String)
       (properties : List (String × RefOrSchema R))
       (additionalProperties : Option (AdditionalProperties R))
       (allOf : List (RefOrSchema R))

/-- `autorust_openapi::ReferenceOr<Schema>`. -/
inductive RefOrSchema (R : Type) where
  | ref (reference : R)
  | item (schema : Schema R)

/-- `autorust_openapi::AdditionalProperties`. -/
inductive AdditionalProperties (R : Type) where
  | boolean (b : Bool)
  | schema (s : RefOrSchema R)

end

def Schema.type_ {R : Type} : Schema R → Option DataType
  | .mk t _ _ _ _ _ _ _ _ => t

def Schema.format {R : Type} : Schema R → Option String
  | .mk _ f _ _ _ _ _ _ _ => f

def Schema.description {R : Type} : Schema R → Option String
  | .mk _ _ d _ _ _ _ _ _ => d

def Schema.items {R : Type} : Schema R → Option (RefOrSchema R)
  | .mk _ _ _ it _ _ _ _ _ => it

def Schema.enum_ {R : Type} : Schema R → List Value
  | .mk _ _ _ _ en _ _ _ _ => en

def Schema.required {R : Type} : Schema R → List String
  | .mk _ _ _ _ _ req _ _ _ => req

def Schema.properties {R : Type} : Schema R → List (String × RefOrSchema R)
  | .mk _ _ _ _ _ _ props _ _ => props

def Schema.additionalProperties {R : Type} : Schema R → Option (AdditionalProperties R)
  | .mk _ _ _ _ _ _ _ ap _ => ap

def Schema.allOf {R : Type} : Schema R → List (RefOrSchema R)
  | .mk _ _ _ _ _ _ _ _ ao => ao

/-- `autorust_openapi::ReferenceOr<T>` at non-recursive positions. -/
inductive RefOr (R : Type) (α : Type) where
  | ref (reference : R)
  | item (a : α)

/-- `autorust_openapi::Parameter` (the fields the embedded code reads). -/
structure Parameter (R : Type) where
  name : String
  required : Option Bool
  type_ : Option DataType
  format : Option String
  schema : Option (RefOrSchema R)

/-- An operation response: `autorust_openapi::Response` (the `schema`
field is the only one the embedded code reads). -/
structure Response (R : Type) where
  schema : Option (RefOrSchema R)

/-- `autorust_openapi::Operation` (the fields the embedded code reads).
`responses` and `x_ms_examples` are `IndexMap`s in the source, modelled as
association lists in document order. -/
structure Operation (R : Type) where
  operationId : Option String
  parameters : List (RefOr R (Parameter R))
  responses : List (String × Response R)
  xMsExamples : List (String × RefOr R Value)

/-- `autorust_openapi::PathItem` (the seven operation slots). -/
structure PathItem (R : Type) where
  get : Option (Operation R)
  post : Option (Operation R)
  put : Option (Operation R)
  patch : Option (Operation R)
  delete : Option (Operation R)
  options : Option (Operation R)
  head : Option (Operation R)

/-- `autorust_openapi::OpenAPI` (the fields the embedded code reads):
`paths`, `definitions` and `parameters`, all `IndexMap`s modelled as
association lists in document order. -/
structure OpenAPI (R : Type) where
  paths : List (String × RefOr R (PathItem R))
  definitions : List (String × RefOrSchema R)
  parameters : List (String × Parameter R)

/-- `spec::RefKey` (identical in both crates): the `(file, name)` primary
key of the schema and parameter indexes. -/
structure RefKey where
  file : Path
  name : String
deriving DecidableEq, Repr

/-- `spec::ResolvedSchema` (identical in both crates): a schema together
with the key it was found under (`none` for inline schemas). -/
structure ResolvedSchema (R : Type) where
  refKey : Option RefKey
  schema : Schema R

/-- `spec::OperationVerb` (identical in both crates): an operation tagged
with its HTTP verb. -/
inductive OperationVerb (R : Type) where
  | get (op : Operation R)
  | post (op : Operation R)
  | put (op : Operation R)
  | patch (op : Operation R)
  | delete (op : Operation R)
  | options (op : Operation R)
  | head (op : Operation R)

/-- `OperationVerb::operation`. -/
def OperationVerb.operation {R : Type} : OperationVerb R → Operation R
  | .get op | .post op | .put op | .patch op | .delete op | .options op | .head op => op

/-- `OperationVerb::verb_name`. -/
def OperationVerb.verbName {R : Type} : OperationVerb R → String
  | .get _ => "get"
  | .post _ => "post"
  | .put _ => "put"
  | .patch _ => "patch"
  | .delete _ => "delete"
  | .options _ => "options"
  | .head _ => "head"

/-- `path_item_operations` / `pathitem_operations` (identical in both
crates): the present operations of a path item, in the fixed verb order. -/
def pathItemOperations {R : Type} (item : PathItem R) : List (OperationVerb R) :=
  [item.get.map .get,
   item.post.map .post,
   item.put.map .put,
   item.patch.map .patch,
   item.delete.map .delete,
   item.options.map .options,
   item.head.map .head].filterMap id

end OA

namespace Src

open OA Heck

/-- `reference.rs`: the parsed form of a `$ref` string of the `autorust`
crate (same shape as `OA.Reference`, but owned by this crate). -/
structure Reference where
  file : Option String
  path : List String
  name : Option String
deriving DecidableEq, Repr

/-- Rust `s.find("#/")`: index of the first occurrence of the two-character
pattern, if any. -/
def findHashSlash : List Char → Option Nat
  | [] => none
  | c :: rest =>
    if c = '#' ∧ rest.head? = some '/' then some 0
    else (findHashSlash rest).map (· + 1)

/-- `Reference::parse`: split a `$ref` string at the first `#/`.  Without a
`#/` the whole string is the file; otherwise the prefix (if non-empty) is the
file, the suffix is split on `/`, and the last piece is popped into `name`.
The source wraps the result in `Ok` unconditionally, so the model is total. -/
def Reference.parse (s : String) : Reference :=
  match findHashSlash s.data with
  | none => ⟨some s, [], none⟩
  | some i =>
    let file := if i = 0 then none else some (String.mk (s.data.take i))
    let parts := splitChar '/' (s.data.drop (i + 2))
    ⟨file, parts.dropLast.map String.mk, (parts.getLast?).map String.mk⟩

/-- Join strings with `/` between them. -/
def joinSlash (l : List String) : String :=
  String.mk (Heck.joinChar '/' (l.map String.data))

/-- Re-serialize a parsed reference, as described by the specification: the
file part, then — when a fragment was present (a `name` was parsed) — `#/`
and the path segments and name joined with `/`. -/
def Reference.serialize (r : Reference) : String :=
  match r.name with
  | none => r.file.getD ""
  | some n => r.file.getD "" ++ "#/" ++ joinSlash (r.path ++ [n])

/-- `codegen.rs` `is_keyword`: the Rust reserved words, in source order. -/
def rustKeywords : List String :=
  ["abstract", "alignof", "as", "become", "box", "break", "const", "continue",
   "crate", "do", "else", "enum", "extern", "false", "final", "fn", "for",
   "if", "impl", "in", "let", "loop", "macro", "match", "mod", "move", "mut",
   "offsetof", "override", "priv", "proc", "pub", "pure", "ref", "return",
   "Self", "self", "sizeof", "static", "struct", "super", "trait", "true",
   "type", "typeof", "unsafe", "unsized", "use", "virtual", "where", "while",
   "yield"]

/-- `codegen.rs` `is_keyword`. -/
def isKeyword (word : String) : Bool :=
  rustKeywords.contains word

/-- The ten digit characters matched by `ident`'s first-character check, in
source order. -/
def digitChars : List Char :=
  ['1', '2', '3', '4', '5', '6', '7', '8', '9', '0']

/-- The character substitution of `ident`: `text.replace(".", "_")`. -/
def dotToUnderscore (c : Char) : Char :=
  if c = '.' then '_' else c

/-- Validity of an identifier as enforced by `proc_macro2::Ident::new`
(which `format_ident!` calls, and which panics on an invalid string):
non-empty, not the single underscore, first character a letter or `_`, rest
alphanumeric or `_`.  ASCII approximation (XID characters beyond ASCII never
occur here). -/
def isValidIdent : List Char → Bool
  | [] => false
  | c :: rest =>
    !(c = '_' && rest.isEmpty) && (c.isAlpha || c = '_') &&
      rest.all (fun d => d.isAlphanum || d = '_')

/-- The core of `codegen.rs` `ident` on a character list.  `none` models a
panic: the source unwraps the first character (panics on the empty string)
and calls `format_ident!` (panics when the result is not a valid
identifier); it has no error channel (`ident` returns a bare
`TokenStream`). -/
def identCore (text : List Char) : Option (List Char) :=
  match text.map dotToUnderscore with
  | [] => none
  | c :: rest =>
    let t1 := c :: rest
    let t2 := if digitChars.contains c then '_' :: t1 else t1
    let t3 := if isKeyword (String.mk t2) then t2 ++ ['_'] else t2
    if isValidIdent t3 then some t3 else none

/-- `codegen.rs` `ident`: substitute `.` with `_`, prefix `_` when the first
character is a digit, append `_` on a keyword collision.  `none` models a
panic. -/
def ident (s : String) : Option String :=
  (identCore s.data).map String.mk

/-- `codegen.rs` `enum_values_as_strings`: keep only the string literals of
an `enum` list. -/
def enumValuesAsStrings (values : List Value) : List String :=
  values.filterMap (fun v =>
    match v with
    | .str s => some s
    | _ => none)

/-- One case of an emitted enum: the sanitized case identifier, and the
`#[serde(rename = ...)]` directive when the identifier differs from the
original literal. -/
structure EnumCase where
  name : String
  rename : Option String
deriving DecidableEq, Repr

/-- An emitted enum declaration: its type identifier and its cases, as
assembled by `create_enum` (the `quote!` token stream is abstracted to this
structure; `create_enum` emits nothing else). -/
structure EnumDecl where
  name : String
  cases : List EnumCase
deriving DecidableEq, Repr

/-- The loop body of `create_enum`: one enum value becomes one case, named by
`ident` of the camel-cased literal, with a rename directive when that
differs from the literal.  `none` models the `ident` panic. -/
def mkEnumCase (name : String) : Option EnumCase :=
  match ident (toCamelCase name) with
  | none => none
  | some nm => some ⟨nm, if nm = name then none else some name⟩

/-- `codegen.rs` `create_enum`: emits one case per *string* enum literal
(via `enum_values_as_strings`) and returns the namespace-qualified type name
together with the declaration.  It is total apart from `ident` panics —
there is no warning and no error for dropped non-string literals. -/
def createEnum (namespace_ : String) (propertyName : String)
    (property : ResolvedSchema String) : Option (String × EnumDecl) := do
  let enumValues := enumValuesAsStrings property.schema.enum_
  let idt ← ident (toCamelCase propertyName)
  let cases ← enumValues.mapM mkEnumCase
  some (namespace_ ++ "::" ++ idt, ⟨idt, cases⟩)

/-- The Rust types emitted by the generator, abstracting the `quote!` token
streams of `codegen.rs`. -/
inductive RustType where
  | unit
  | vec (t : RustType)
  | int32
  | int64
  | float32
  | float64
  | string
  | boolean
  | jsonValue
  | named (s : String)
  | result (t : RustType)
deriving DecidableEq, Repr

/-- Errors of the `autorust` crate (`Box<dyn Error>` carrying a message);
`abort` models a panic rather than a returned error. -/
inductive RErr where
  | abort
  | err (s : String)
deriving DecidableEq, Repr

mutual

/-- `codegen.rs` `get_type_name_for_schema`: map a schema to its Rust type
by its `type` and `format`.  A missing `items` on an array is the error the
source raises; a missing `type` warns and falls back to
`serde_json::Value` (the warning is on stderr and not part of the value). -/
def getTypeNameForSchema : Schema String → Except RErr RustType
  | .mk type_ format _ items _ _ _ _ _ =>
    match type_ with
    | some .array =>
      match items with
      | none => .error (.err "array expected to have items")
      | some it => (getTypeNameForSchemaRef it).map RustType.vec
    | some .integer => .ok (if format = some "int32" then .int32 else .int64)
    | some .number => .ok (if format = some "float" then .float32 else .float64)
    | some .string => .ok .string
    | some .boolean => .ok .boolean
    | some .object => .ok .jsonValue
    | none => .ok .jsonValue

/-- `codegen.rs` `get_type_name_for_schema_ref`: a reference names the
referenced schema's camel-cased identifier; an inline schema is mapped by
`get_type_name_for_schema`. -/
def getTypeNameForSchemaRef : RefOrSchema String → Except RErr RustType
  | .ref reference =>
    match (Reference.parse reference).name with
    | none => .error (.err ("no name for ref " ++ reference))
    | some n =>
      match ident (toCamelCase n) with
      | none => .error .abort
      | some idt => .ok (.named idt)
  | .item schema => getTypeNameForSchema schema

end

/-- The response loop of `codegen.rs` `create_function_return`: the first
response carrying a schema determines `Result<T>`; without any schema the
return type is `Result<()>`. -/
def createFunctionReturnLoop : List (String × Response String) → Except RErr RustType
  | [] => .ok (.result .unit)
  | (_, rsp) :: rest =>
    match rsp.schema with
    | some s => (getTypeNameForSchemaRef s).map RustType.result
    | none => createFunctionReturnLoop rest

/-- `codegen.rs` `create_function_return`. -/
def createFunctionReturn (verb : OperationVerb String) : Except RErr RustType :=
  createFunctionReturnLoop verb.operation.responses

/-- `codegen.rs` `create_function_name`: non-empty path segments followed by
the verb name, joined with `_` (used when an operation has no
`operationId`). -/
def createFunctionName (path : String) (verbName : String) : String :=
  String.intercalate "_"
    (((splitChar '/' path.data).map String.mk).filter (fun x => x ≠ "") ++ [verbName])

/-- A duplicate-name warning of `create_models`: the schema name, the file
it was first created from, and the file of the later duplicate (the
`eprintln!` names all three). -/
structure DuplicateWarning where
  name : String
  firstFile : Path
  duplicateFile : Path
deriving DecidableEq, Repr

/-- The name-deduplication loop of `create_models` (`codegen.rs` lines
93–115) over the collected `all_schemas`.  `schema_names.insert` always
stores the new file and returns the previous one; a previous entry means a
warning and no declaration, otherwise one declaration is emitted for the
key.  The emission of one declaration (the `create_vec_alias` /
`create_enum` / `create_struct` dispatch) is abstracted by `emit`; a
declaration is recorded together with the `RefKey` it was emitted for. -/
def createModelsLoop {ε β : Type} (emit : RefKey → ResolvedSchema String → Except ε β) :
    List (RefKey × ResolvedSchema String) → List (String × Path) →
    List DuplicateWarning → List (RefKey × β) →
    Except ε (List DuplicateWarning × List (RefKey × β))
  | [], _, ws, ds => .ok (ws, ds)
  | (k, s) :: rest, names, ws, ds =>
    match lookupEntry names k.name with
    | some first =>
      createModelsLoop emit rest (insertEntry names k.name k.file)
        (ws ++ [⟨k.name, first, k.file⟩]) ds
    | none =>
      match emit k s with
      | .error e => .error e
      | .ok b => createModelsLoop emit rest (insertEntry names k.name k.file) ws (ds ++ [(k, b)])

/-- `create_models`' deduplication pass, started on empty accumulators. -/
def createModelsDedup {ε β : Type} (emit : RefKey → ResolvedSchema String → Except ε β)
    (allSchemas : List (RefKey × ResolvedSchema String)) :
    Except ε (List DuplicateWarning × List (RefKey × β)) :=
  createModelsLoop emit allSchemas [] [] []

end Src

namespace Cg

open OA Heck

/-- Rust `Path::extension` on one file name: the suffix after the last `.`,
none when there is no `.` or when the only `.` is the leading character of a
hidden file. -/
def fileExtension (name : String) : Option String :=
  let cs := name.data
  let after := cs.reverse.takeWhile (fun c => c ≠ '.')
  if after.length = cs.length then none
  else if after.length + 1 = cs.length then none
  else some (String.mk after.reverse)

/-- Rust `Path::extension` of a path: the extension of its last component. -/
def pathExtension (p : Path) : Option String :=
  p.getLast?.bind fileExtension

/-- `path_abs::PathMut::pop_up`: drop the last component; going up from an
empty (exhausted) path is an error. -/
def popUp (p : Path) : Except Unit Path :=
  match p with
  | [] => .error ()
  | _ => .ok p.dropLast

/-- Rust `Path::components` of a relative path string: split on `/`,
dropping empty and `.` components, keeping `..`. -/
def components (s : String) : List String :=
  ((splitChar '/' s.data).map String.mk).filter (fun c => c ≠ "" ∧ c ≠ ".")

/-- `path_abs::PathMut::append`: push each component, resolving `..` by
popping. -/
def appendComps (p : Path) : List String → Except Unit Path
  | [] => .ok p
  | c :: rest =>
    if c = ".." then
      match popUp p with
      | .error e => .error e
      | .ok p' => appendComps p' rest
    else appendComps (p ++ [c]) rest

/-- `path.rs` `join` of the `autorust_codegen` crate: when the first path
ends in a file name (its last component has an extension) it is first
stripped to its parent directory, then the second path is appended
segment-wise, honouring `..` components. -/
def join (a : Path) (b : String) : Except Unit Path := do
  let c ← if (pathExtension a).isSome then popUp a else .ok a
  appendComps c (components b)

/-- `spec.rs` `Error` of the `autorust_codegen` crate.  `ReadFile`,
`DeserializeYaml` and `DeserializeJson` are collapsed into `parseError`
carrying the failing path (the claims never inspect their payloads). -/
inductive Error where
  | pathJoin
  | schemaNotFound (refKey : RefKey)
  | noNameInReference
  | parameterNotFound
  | notImplemented
  | parseError (p : Path)
deriving DecidableEq, Repr

/-- `spec.rs` `TypedReference`: a `$ref` tagged with the role it appeared
in (`Example` is the `x-ms-examples` role). -/
inductive TypedReference where
  | pathItem (r : OA.Reference)
  | parameter (r : OA.Reference)
  | schema (r : OA.Reference)
  | exampleRef (r : OA.Reference)
deriving DecidableEq, Repr

/-- The `Into<&Reference>` conversion: the reference a typed reference
carries. -/
def toReference : TypedReference → OA.Reference
  | .pathItem r | .parameter r | .schema r | .exampleRef r => r

/-- Whether a typed reference has the `Example` role. -/
def TypedReference.isExample : TypedReference → Bool
  | .exampleRef _ => true
  | _ => false

mutual

/-- `spec.rs` `add_refs_for_schema`: the schema-typed `$ref`s inside one
schema, in source order — `properties`, then `additional_properties`, then
`items`, then `all_of` — descending into inline sub-schemas. -/
def addRefsForSchema : Schema OA.Reference → List TypedReference
  | .mk _ _ _ items _ _ properties additionalProperties allOf =>
    addRefsProps properties ++ addRefsAP additionalProperties ++
      addRefsItems items ++ addRefsList allOf

def addRefsProps : List (String × RefOrSchema OA.Reference) → List TypedReference
  | [] => []
  | (_, ros) :: rest => addRefsRos ros ++ addRefsProps rest

def addRefsAP : Option (AdditionalProperties OA.Reference) → List TypedReference
  | none => []
  | some (.boolean _) => []
  | some (.schema ros) => addRefsRos ros

def addRefsItems : Option (RefOrSchema OA.Reference) → List TypedReference
  | none => []
  | some ros => addRefsRos ros

def addRefsList : List (RefOrSchema OA.Reference) → List TypedReference
  | [] => []
  | ros :: rest => addRefsRos ros ++ addRefsList rest

def addRefsRos : RefOrSchema OA.Reference → List TypedReference
  | .ref r => [.schema r]
  | .item s => addRefsForSchema s

end

/-- The schema refs of an optional `ReferenceOr<Schema>` (the match the
source performs on parameter and response schemas). -/
def refsOfOptSchema : Option (RefOrSchema OA.Reference) → List TypedReference
  | some (.ref r) => [.schema r]
  | some (.item s) => addRefsForSchema s
  | none => []

/-- `spec.rs` `get_refs`: every `$ref` of a document, in document order,
tagged by role — path items, then per operation its parameters, response
schemas and examples, then the `definitions`. -/
def getRefs (api : OpenAPI OA.Reference) : List TypedReference :=
  (api.paths.flatMap (fun pi =>
    match pi.2 with
    | .ref r => [.pathItem r]
    | .item item =>
      (pathItemOperations item).flatMap (fun verb =>
        let op := verb.operation
        (op.parameters.flatMap (fun param =>
          match param with
          | .ref r => [.parameter r]
          | .item prm => refsOfOptSchema prm.schema))
        ++ (op.responses.flatMap (fun rsp => refsOfOptSchema rsp.2.schema))
        ++ (op.xMsExamples.flatMap (fun ex =>
          match ex.2 with
          | .ref r => [.exampleRef r]
          | .item _ => [])))))
  ++ (api.definitions.flatMap (fun d => addRefsRos d.2))

/-- `spec.rs` `openapi::get_ref_files`: the set (in first-occurrence order)
of file parts of every non-`Example` reference of a document. -/
def getRefFiles (api : OpenAPI OA.Reference) : List String :=
  dedupList ((getRefs api).filterMap (fun t =>
    match t with
    | .exampleRef _ => none
    | t => (toReference t).file))

/-- The document store of `Spec`: file path → parsed document, in insertion
order (`IndexMap<PathBuf, OpenAPI>`). -/
abbrev Docs := List (Path × OpenAPI OA.Reference)

/-- `spec.rs` `Spec`: the document graph plus the schema and parameter
indexes and the set of primary input files. -/
structure Spec where
  docs : Docs
  schemas : List (RefKey × Schema OA.Reference)
  parameters : List (RefKey × Parameter OA.Reference)
  inputFilesPaths : List Path

/-- `openapi::parse` over an abstract file system: `fs p` is the parsed
document of file `p`, `none` when reading or deserializing fails. -/
def openapiParse (fs : Path → Option (OpenAPI OA.Reference)) (p : Path) :
    Except Error (OpenAPI OA.Reference) :=
  match fs p with
  | some d => .ok d
  | none => .error (.parseError p)

/-- The inner loop of `Spec::read_files`: for every referenced file of one
input document, join it to the input's path and load it when the graph does
not contain it yet. -/
def loadRefs (fs : Path → Option (OpenAPI OA.Reference)) (input : Path) :
    List String → Docs → Except Error Docs
  | [], docs => .ok docs
  | f :: rest, docs =>
    match join input f with
    | .error _ => .error .pathJoin
    | .ok docPath =>
      if (lookupEntry docs docPath).isSome then loadRefs fs input rest docs
      else
        match openapiParse fs docPath with
        | .error e => .error e
        | .ok d => loadRefs fs input rest (docs ++ [(docPath, d)])

/-- The outer loop of `Spec::read_files`: parse each input file, record it,
then load the files it references directly. -/
def loadInputs (fs : Path → Option (OpenAPI OA.Reference)) :
    List Path → Docs → Except Error Docs
  | [], docs => .ok docs
  | i :: rest, docs =>
    match openapiParse fs i with
    | .error e => .error e
    | .ok d =>
      let refFiles := getRefFiles d
      match loadRefs fs i refFiles (insertEntry docs i d) with
      | .error e => .error e
      | .ok docs' => loadInputs fs rest docs'

/-- The index pass of `Spec::read_files`: every inline entry of every
document's `definitions` keyed by `(file, name)` (references under
`definitions` are skipped). -/
def buildSchemas (docs : Docs) : List (RefKey × Schema OA.Reference) :=
  docs.foldl (fun acc pd =>
    pd.2.definitions.foldl (fun acc nd =>
      match nd.2 with
      | .ref _ => acc
      | .item s => insertEntry acc ⟨pd.1, nd.1⟩ s) acc) []

/-- The index pass of `Spec::read_files` for `parameters`. -/
def buildParameters (docs : Docs) : List (RefKey × Parameter OA.Reference) :=
  docs.foldl (fun acc pd =>
    pd.2.parameters.foldl (fun acc np => insertEntry acc ⟨pd.1, np.1⟩ np.2) acc) []

/-- `spec.rs` `Spec::read_files` over an abstract file system. -/
def readFiles (fs : Path → Option (OpenAPI OA.Reference)) (inputFilesPaths : List Path) :
    Except Error Spec :=
  match loadInputs fs inputFilesPaths [] with
  | .error e => .error e
  | .ok docs =>
    .ok { docs := docs
          schemas := buildSchemas docs
          parameters := buildParameters docs
          inputFilesPaths := dedupList inputFilesPaths }

/-- The file paths present in the document graph, in insertion order. -/
def docKeys (docs : Docs) : List Path :=
  docs.map Prod.fst

/-- The `full_path` computation of `Spec::resolve_schema_ref` and
`Spec::resolve_parameter_ref`: the current document's path when the
reference has no file part, otherwise the join of both. -/
def fullPath (docPath : Path) (reference : OA.Reference) : Except Error Path :=
  match reference.file with
  | none => .ok docPath
  | some f =>
    match join docPath f with
    | .error _ => .error .pathJoin
    | .ok p => .ok p

/-- `spec.rs` `Spec::resolve_schema_ref`: compute the full path, require a
`name`, look `(file, name)` up in the schema index, and return the schema
together with that key. -/
def resolveSchemaRef (sp : Spec) (docPath : Path) (reference : OA.Reference) :
    Except Error (ResolvedSchema OA.Reference) :=
  match fullPath docPath reference with
  | .error e => .error e
  | .ok file =>
    match reference.name with
    | none => .error .noNameInReference
    | some name =>
      match lookupEntry sp.schemas ⟨file, name⟩ with
      | none => .error (.schemaNotFound ⟨file, name⟩)
      | some schema => .ok ⟨some ⟨file, name⟩, schema⟩

/-- Rust `str::splitn(2, sep)` condensed to its two outcomes: the part
before the first separator, and — when the separator occurs — the rest
after it. -/
def splitAtFirst (sep : Char) : List Char → List Char × Option (List Char)
  | [] => ([], none)
  | c :: rest =>
    if c = sep then ([], some rest)
    else
      let r := splitAtFirst sep rest
      (c :: r.1, r.2)

/-- `spec.rs` `function_name_from_operation_id`: split the operationId at
the first `_`; with two parts, both are snake-cased into
`(module, function)`; otherwise the whole id is snake-cased with no
module. -/
def functionNameFromOperationId (operationId : String) : Option String × String :=
  match splitAtFirst '_' operationId.data with
  | (a, some b) => (some (toSnakeCase (String.mk a)), toSnakeCase (String.mk b))
  | (a, none) => (none, toSnakeCase (String.mk a))

/-- `spec.rs` `create_function_name` of the `autorust_codegen` crate:
identical to the `autorust` crate's. -/
def createFunctionName (path : String) (verbName : String) : String :=
  String.intercalate "_"
    (((splitChar '/' path.data).map String.mk).filter (fun x => x ≠ "") ++ [verbName])

/-- `spec.rs` `OperationVerb::function_name`: from the operationId when
present, otherwise synthesized from the path and the verb name. -/
def functionName (verb : OperationVerb OA.Reference) (path : String) :
    Option String × String :=
  match verb.operation.operationId with
  | some operationId => functionNameFromOperationId operationId
  | none => (none, createFunctionName path verb.verbName)

end Cg

section ExampleData

open OA

/-- A schema with every field empty, for building concrete documents. -/
def emptySchema {R : Type} : Schema R :=
  .mk none none none none [] [] [] none []

/-- A concrete string-typed schema. -/
def stringSchema {R : Type} : Schema R :=
  .mk (some .string) none none none [] [] [] none []

/-- Concrete document `c.json`: one inline definition, no references. -/
def docC : OpenAPI OA.Reference :=
  ⟨[], [("Z", .item stringSchema)], []⟩

/-- Concrete document `b.json`: its definition `Y` is a cross-file `$ref`
into `c.json`. -/
def docB : OpenAPI OA.Reference :=
  ⟨[], [("Y", .ref ⟨some "c.json", ["definitions"], some "Z"⟩)], []⟩

/-- Concrete document `a.json`: its definition `X` is a cross-file `$ref`
into `b.json`. -/
def docA : OpenAPI OA.Reference :=
  ⟨[], [("X", .ref ⟨some "b.json", ["definitions"], some "Y"⟩)], []⟩

/-- A concrete file system holding `a.json`, `b.json` and `c.json`. -/
def exFS1 : Path → Option (OpenAPI OA.Reference) := fun p =>
  if p = ["a.json"] then some docA
  else if p = ["b.json"] then some docB
  else if p = ["c.json"] then some docC
  else none

/-- The document-graph keys produced by `Spec::read_files` on input
`a.json` over `exFS1`. -/
def c1exDocKeys : List Path :=
  match Cg.readFiles exFS1 [["a.json"]] with
  | .ok sp => Cg.docKeys sp.docs
  | .error _ => []

/-- An operation whose only reference is an `x-ms-examples` file. -/
def exampleOnlyOperation : Operation OA.Reference :=
  { operationId := none
    parameters := []
    responses := []
    xMsExamples := [("create", .ref ⟨some "ex.json", [], none⟩)] }

/-- Concrete document `a2.json`: one path whose GET operation references
`ex.json` only through `x-ms-examples`. -/
def docExampleOnly : OpenAPI OA.Reference :=
  ⟨[("/p", .item ⟨some exampleOnlyOperation, none, none, none, none, none, none⟩)], [], []⟩

/-- A file system holding only `a2.json`; the example file `ex.json` is
absent from disk. -/
def exFS2 : Path → Option (OpenAPI OA.Reference) := fun p =>
  if p = ["a2.json"] then some docExampleOnly else none

/-- The document-graph keys produced by `Spec::read_files` on input
`a2.json` over `exFS2`. -/
def c9exDocKeys : List Path :=
  match Cg.readFiles exFS2 [["a2.json"]] with
  | .ok sp => Cg.docKeys sp.docs
  | .error _ => []

/-- A one-schema `Spec` for exercising `resolve_schema_ref`. -/
def c2exSpec : Cg.Spec :=
  { docs := []
    schemas := [(⟨["t.json"], "X"⟩, stringSchema)]
    parameters := []
    inputFilesPaths := [] }

/-- A GET operation without `operationId`. -/
def c3exVerb : OperationVerb OA.Reference :=
  .get { operationId := none, parameters := [], responses := [], xMsExamples := [] }

/-- A GET operation whose first response has no schema and whose second
response references `Pet`. -/
def c4exVerb : OperationVerb String :=
  .get { operationId := some "Pets_Get"
         parameters := []
         responses := [("200", ⟨none⟩), ("201", ⟨some (.ref "#/definitions/Pet")⟩)]
         xMsExamples := [] }

/-- A property schema whose enum literals mix strings and non-strings. -/
def c10exProp : ResolvedSchema String :=
  ⟨none, .mk none none none none [.str "a", .num 1, .bool true, .null, .str "b"] [] [] none []⟩

/-- A property schema whose enum literals are all non-strings. -/
def c10exPropNoStr : ResolvedSchema String :=
  ⟨none, .mk none none none none [.num 1, .bool false, .null] [] [] none []⟩

/-- A trivial emitter for exercising the `create_models` deduplication
loop. -/
def c8emit : RefKey → ResolvedSchema String → Except Unit Unit :=
  fun _ _ => .ok ()

/-- An inline resolved schema for the deduplication examples. -/
def c8exSchema : ResolvedSchema String :=
  ⟨none, stringSchema⟩

end ExampleData

/-! ### Supporting lemmas -/

namespace Src

theorem splitChar_ne_nil (sep : Char) (l : List Char) : splitChar sep l ≠ [] := by
  induction l with
  | nil => simp [splitChar]
  | cons c rest ih =>
    simp only [splitChar]
    by_cases hc : c = sep
    · simp [hc]
    · simp only [hc, if_false]
      cases h : splitChar sep rest with
      | nil => simp
      | cons h t => simp

theorem joinChar_cons_cons (sep c : Char) (h : List Char) (t : List (List Char)) :
    Heck.joinChar sep ((c :: h) :: t) = c :: Heck.joinChar sep (h :: t) := by
  cases t with
  | nil => rfl
  | cons t1 t2 => rfl

theorem joinChar_splitChar (sep : Char) (l : List Char) :
    Heck.joinChar sep (splitChar sep l) = l := by
  induction l with
  | nil => rfl
  | cons c rest ih =>
    simp only [splitChar]
    by_cases hc : c = sep
    · subst hc
      simp only [if_pos rfl]
      obtain ⟨h, t, hr⟩ := List.exists_cons_of_ne_nil (splitChar_ne_nil c rest)
      rw [hr] at ih ⊢
      show Heck.joinChar c ([] :: h :: t) = c :: rest
      simp only [Heck.joinChar, List.nil_append]
      rw [ih]
    · simp only [hc, if_false]
      obtain ⟨h, t, hr⟩ := List.exists_cons_of_ne_nil (splitChar_ne_nil sep rest)
      rw [hr] at ih ⊢
      show Heck.joinChar sep ((c :: h) :: t) = c :: rest
      rw [joinChar_cons_cons sep c h t, ih]

theorem findHashSlash_decomp :
    ∀ (cs : List Char) (i : Nat), findHashSlash cs = some i →
      cs.take i ++ '#' :: '/' :: cs.drop (i + 2) = cs := by
  intro cs
  induction cs with
  | nil => intro i h; simp [findHashSlash] at h
  | cons c rest ih =>
    intro i h
    simp only [findHashSlash] at h
    by_cases hc : c = '#' ∧ rest.head? = some '/'
    · rw [if_pos hc] at h
      obtain ⟨rfl, hhead⟩ := hc
      cases h
      cases rest with
      | nil => simp at hhead
      | cons d rest2 =>
        simp only [List.head?] at hhead
        cases hhead
        simp
    · rw [if_neg hc] at h
      obtain ⟨j, hj, rfl⟩ := Option.map_eq_some'.mp h
      have := ih j hj
      show (c :: rest).take (j + 1) ++ '#' :: '/' :: (c :: rest).drop (j + 1 + 2) = c :: rest
      have hdrop : j + 1 + 2 = (j + 2) + 1 := by omega
      rw [hdrop, List.take_succ_cons, List.drop_succ_cons, List.cons_append, this]

end Src

namespace Src

theorem string_data_append (a b : String) : (a ++ b).data = a.data ++ b.data := rfl

theorem map_data_map_mk (L : List (List Char)) :
    (L.map String.mk).map String.data = L := by
  rw [List.map_map]
  exact List.map_id'' (fun _ => rfl) L

theorem serialize_parse (s : String) : (Reference.parse s).serialize = s := by
  obtain ⟨cs⟩ := s
  show (Reference.parse (String.mk cs)).serialize = String.mk cs
  unfold Reference.parse
  cases hf : findHashSlash (String.mk cs).data with
  | none => simp [Reference.serialize]
  | some i =>
    have hcs : (String.mk cs).data = cs := rfl
    rw [hcs] at hf
    have hne := splitChar_ne_nil '/' (cs.drop (i + 2))
    simp only [hcs]
    rw [List.getLast?_eq_getLast _ hne]
    simp only [Option.map_some']
    show (Reference.serialize
      ⟨if i = 0 then none else some (String.mk (cs.take i)),
       (splitChar '/' (cs.drop (i + 2))).dropLast.map String.mk,
       some (String.mk ((splitChar '/' (cs.drop (i + 2))).getLast hne))⟩) = String.mk cs
    unfold Reference.serialize
    simp only
    unfold joinSlash
    rw [List.map_append, map_data_map_mk]
    simp only [List.map_cons, List.map_nil]
    rw [List.dropLast_append_getLast hne, joinChar_splitChar]
    have hdec := findHashSlash_decomp cs i hf
    by_cases hi : i = 0
    · subst hi
      simp only [if_pos rfl, Option.getD_none]
      apply String.ext
      rw [string_data_append, string_data_append]
      simp only [List.take_zero, List.nil_append] at hdec
      show ([] : List Char) ++ ['#', '/'] ++ cs.drop (0 + 2) = cs
      simpa using hdec
    · rw [if_neg hi]
      simp only [Option.getD_some]
      apply String.ext
      rw [string_data_append, string_data_append]
      show cs.take i ++ ['#', '/'] ++ cs.drop (i + 2) = cs
      simpa using hdec

end Src

/-- C5: for every string accepted by `Reference::parse`, re-serializing the
parsed reference (file part, then `#/` and the path segments and name joined
with `/` when a fragment was present) and parsing the result again yields a
reference equal to the first parse. -/
theorem c5_reference_parse_roundtrip (s : String) :
    Src.Reference.parse (Src.Reference.parse s).serialize = Src.Reference.parse s := by
  rw [Src.serialize_parse]

namespace Cg

theorem splitAtFirst_fst (sep : Char) (cs : List Char) :
    (splitAtFirst sep cs).1 = cs.takeWhile (fun c => c != sep) := by
  induction cs with
  | nil => rfl
  | cons c rest ih =>
    simp only [splitAtFirst, List.takeWhile]
    by_cases hc : c = sep
    · simp [hc]
    · simp only [hc, if_false]
      have : (c != sep) = true := by simp [hc]
      simp [this, ih]

theorem splitAtFirst_snd_of_mem (sep : Char) (cs : List Char) (h : sep ∈ cs) :
    (splitAtFirst sep cs).2 = some ((cs.dropWhile (fun c => c != sep)).tail) := by
  induction cs with
  | nil => simp at h
  | cons c rest ih =>
    simp only [splitAtFirst, List.dropWhile]
    by_cases hc : c = sep
    · simp [hc]
    · have hmem : sep ∈ rest := by
        rcases List.mem_cons.mp h with h1 | h1
        · exact absurd h1.symm hc
        · exact h1
      have : (c != sep) = true := by simp [hc]
      simp [hc, this, ih hmem]

theorem splitAtFirst_snd_of_not_mem (sep : Char) (cs : List Char) (h : sep ∉ cs) :
    (splitAtFirst sep cs).2 = none := by
  induction cs with
  | nil => rfl
  | cons c rest ih =>
    simp only [splitAtFirst]
    have hc : ¬c = sep := fun hh => h (hh ▸ List.mem_cons_self c rest)
    have hmem : sep ∉ rest := fun hh => h (List.mem_cons_of_mem c hh)
    simp [hc, ih hmem]

end Cg

/-- C3: for every operation, an `operationId` containing an underscore is
split at the first underscore into `(module, function)` with each part
snake-cased (`"PrivateClouds_CreateOrUpdate"` gives
`(some "private_clouds", "create_or_update")`); an `operationId` without an
underscore is snake-cased with no module (`"get"` gives `(none, "get")`);
and without an `operationId` the function name is the non-empty path
segments followed by the verb name joined with underscores
(`"/pets"` with `get` gives `"pets_get"`). -/
theorem c3_function_naming :
    (∀ operationId : String, '_' ∈ operationId.data →
      Cg.functionNameFromOperationId operationId =
        (some (Heck.toSnakeCase (String.mk (operationId.data.takeWhile (fun c => c != '_')))),
         Heck.toSnakeCase (String.mk ((operationId.data.dropWhile (fun c => c != '_')).tail))))
  ∧ Cg.functionNameFromOperationId "PrivateClouds_CreateOrUpdate" =
      (some "private_clouds", "create_or_update")
  ∧ (∀ operationId : String, '_' ∉ operationId.data →
      Cg.functionNameFromOperationId operationId = (none, Heck.toSnakeCase operationId))
  ∧ Cg.functionNameFromOperationId "get" = (none, "get")
  ∧ (∀ (verb : OA.OperationVerb OA.Reference) (path : String),
      verb.operation.operationId = none →
      Cg.functionName verb path = (none, Cg.createFunctionName path verb.verbName))
  ∧ Cg.createFunctionName "/pets" "get" = "pets_get" := by
  refine ⟨?_, by decide, ?_, by decide, ?_, by decide⟩
  · intro oid h
    have hsp : Cg.splitAtFirst '_' oid.data =
        (oid.data.takeWhile (fun c => c != '_'),
         some ((oid.data.dropWhile (fun c => c != '_')).tail)) := by
      rw [← Cg.splitAtFirst_fst, ← Cg.splitAtFirst_snd_of_mem _ _ h]
    simp [Cg.functionNameFromOperationId, hsp]
  · intro oid h
    have hsp : Cg.splitAtFirst '_' oid.data =
        (oid.data.takeWhile (fun c => c != '_'), none) := by
      rw [← Cg.splitAtFirst_fst, ← Cg.splitAtFirst_snd_of_not_mem _ _ h]
    have htake : oid.data.takeWhile (fun c => c != '_') = oid.data := by
      refine List.takeWhile_eq_self_iff.mpr (fun x hx => ?_)
      simp only [bne_iff_ne, ne_eq]
      rintro rfl
      exact h hx
    simp [Cg.functionNameFromOperationId, hsp, htake]
  · intro verb path h
    simp [Cg.functionName, h]

/-- Witness for C3: the quantified parts of `c3_function_naming` applied at
concrete inputs. -/
theorem c3_function_naming_witness :
    Cg.functionNameFromOperationId "A_B" =
      (some (Heck.toSnakeCase (String.mk ("A_B".data.takeWhile (fun c => c != '_')))),
       Heck.toSnakeCase (String.mk (("A_B".data.dropWhile (fun c => c != '_')).tail)))
  ∧ Cg.functionNameFromOperationId "xyz" = (none, Heck.toSnakeCase "xyz")
  ∧ Cg.functionName c3exVerb "/pets" = (none, Cg.createFunctionName "/pets" c3exVerb.verbName) :=
  ⟨c3_function_naming.1 "A_B" (by decide),
   c3_function_naming.2.2.1 "xyz" (by decide),
   c3_function_naming.2.2.2.2.1 c3exVerb "/pets" rfl⟩

namespace Src

theorem digitChars_not_identHead :
    ∀ c ∈ digitChars, (c.isAlpha || c = '_') = false := by
  decide

theorem head_not_digit {c : Char} (h : (c.isAlpha || c = '_') = true) :
    digitChars.contains c = false := by
  by_cases hc : digitChars.contains c
  · exfalso
    have hmem : c ∈ digitChars := by
      simpa using hc
    rw [digitChars_not_identHead c hmem] at h
    exact Bool.false_ne_true h
  · simpa using hc

theorem identHead_ne_dot {c : Char} (h : (c.isAlpha || c = '_') = true) : c ≠ '.' := by
  rintro rfl
  exact absurd h (by decide)

theorem identTail_ne_dot {c : Char} (h : (c.isAlphanum || c = '_') = true) : c ≠ '.' := by
  rintro rfl
  exact absurd h (by decide)

theorem rustKeywords_no_underscore : ∀ s ∈ rustKeywords, '_' ∉ s.data := by
  decide

theorem isKeyword_append_underscore (t : List Char) :
    isKeyword (String.mk (t ++ ['_'])) = false := by
  by_cases hk : isKeyword (String.mk (t ++ ['_'])) = true
  · exfalso
    have hmem : String.mk (t ++ ['_']) ∈ rustKeywords := by
      simpa [isKeyword] using hk
    have := rustKeywords_no_underscore _ hmem
    exact this (by simp)
  · simpa using hk

theorem isValidIdent_parts {cs : List Char} (h : isValidIdent cs = true) :
    ∃ c rest, cs = c :: rest ∧ (c.isAlpha || c = '_') = true ∧
      (∀ d ∈ rest, (d.isAlphanum || d = '_') = true) := by
  cases cs with
  | nil => simp [isValidIdent] at h
  | cons c rest =>
    refine ⟨c, rest, rfl, ?_, ?_⟩
    · simp only [isValidIdent, Bool.and_eq_true] at h
      exact h.1.2
    · simp only [isValidIdent, Bool.and_eq_true, List.all_eq_true] at h
      exact h.2

theorem validIdent_map_dot {cs : List Char} (h : isValidIdent cs = true) :
    cs.map dotToUnderscore = cs := by
  obtain ⟨c, rest, rfl, hc, hrest⟩ := isValidIdent_parts h
  have : ∀ d ∈ c :: rest, dotToUnderscore d = d := by
    intro d hd
    rcases List.mem_cons.mp hd with rfl | hd
    · simp [dotToUnderscore, identHead_ne_dot hc]
    · simp [dotToUnderscore, identTail_ne_dot (hrest d hd)]
  calc (c :: rest).map dotToUnderscore = (c :: rest).map id := List.map_congr_left this
    _ = c :: rest := List.map_id _

theorem identCore_idem {xs ys : List Char} (h : identCore xs = some ys) :
    identCore ys = some ys := by
  unfold identCore at h
  cases h1 : xs.map dotToUnderscore with
  | nil => rw [h1] at h; exact absurd h (by simp)
  | cons c rest =>
    rw [h1] at h
    simp only at h
    by_cases hv : isValidIdent
        (if isKeyword (String.mk (if digitChars.contains c then '_' :: c :: rest else c :: rest))
         then (if digitChars.contains c then '_' :: c :: rest else c :: rest) ++ ['_']
         else (if digitChars.contains c then '_' :: c :: rest else c :: rest)) = true
    · rw [if_pos hv] at h
      have hys : ys =
          (if isKeyword (String.mk (if digitChars.contains c then '_' :: c :: rest else c :: rest))
           then (if digitChars.contains c then '_' :: c :: rest else c :: rest) ++ ['_']
           else (if digitChars.contains c then '_' :: c :: rest else c :: rest)) := by
        exact (Option.some.injEq _ _ ▸ h).symm
      -- ys is a valid identifier
      have hvys : isValidIdent ys = true := hys ▸ hv
      -- ys is keyword-free
      have hkys : isKeyword (String.mk ys) = false := by
        rw [hys]
        by_cases hkw : isKeyword
            (String.mk (if digitChars.contains c then '_' :: c :: rest else c :: rest)) = true
        · rw [if_pos hkw]
          exact isKeyword_append_underscore _
        · rw [if_neg hkw]
          simpa using hkw
      -- now evaluate identCore ys
      obtain ⟨c0, rest0, hys0, hc0, _⟩ := isValidIdent_parts hvys
      unfold identCore
      rw [validIdent_map_dot hvys, hys0]
      simp only
      rw [show digitChars.contains c0 = false from head_not_digit hc0]
      simp only [if_false, Bool.false_eq_true]
      rw [← hys0, hkys]
      simp only [Bool.false_eq_true, if_false]
      rw [hvys]
      simp [hys0]
    · rw [if_neg hv] at h
      exact absurd h (by simp)

end Src

/-- C6: the identifier sanitizer of `codegen.rs` is idempotent — for every
non-empty input on which `ident` terminates normally, applying `ident` to
its own output returns the output unchanged (the `.`→`_` substitution, the
digit-prefix `_` and the keyword-collision `_` suffix never need to be
re-applied). -/
theorem c6_ident_idempotent (x y : String) (_hx : x ≠ "") (h : Src.ident x = some y) :
    Src.ident y = some y := by
  unfold Src.ident at h ⊢
  cases hc : Src.identCore x.data with
  | none => rw [hc] at h; exact absurd h (by simp)
  | some zs =>
    rw [hc] at h
    simp only [Option.map_some', Option.some.injEq] at h
    have hidem := Src.identCore_idem hc
    have hdata : y.data = zs := by rw [← h]
    rw [show y.data = zs from hdata, hidem]
    simp [← h]

/-- Witness for C6 at the keyword `"type"`. -/
theorem c6_ident_idempotent_witness : Src.ident "type_" = some "type_" :=
  c6_ident_idempotent "type" "type_" (by decide) (by decide)

/-- Counterexample for C7: on the empty string — the input whose
sanitization would produce the empty identifier — `ident` panics (the
source unwraps `text.chars().next()`, modelled as `none`); it does not
return an `InvalidIdentifier` error.  Indeed `ident` returns a bare
`TokenStream` in the source and has no error channel at all, and no
`InvalidIdentifier` error variant exists in this crate. -/
theorem c7_ident_empty_panics : Src.ident "" = none := rfl

/-- C7 (amended): when given the empty string — the only input whose `.`→`_`
substitution yields the empty string — the sanitizer `ident` aborts by
panic (modelled as `none`) rather than returning an identifier or an
error. -/
theorem c7_ident_empty_amended :
    Src.ident "" = none ∧
      ∀ x : String, x ≠ "" → x.data.map Src.dotToUnderscore ≠ [] := by
  refine ⟨rfl, fun x hx => ?_⟩
  intro hmap
  apply hx
  have hnil : x.data = [] := List.map_eq_nil_iff.mp hmap
  cases x with
  | mk data => cases hnil; rfl

/-- Witness for C7's amended theorem. -/
theorem c7_ident_empty_amended_witness :
    Src.ident "" = none ∧ ("a" : String).data.map Src.dotToUnderscore ≠ [] :=
  ⟨c7_ident_empty_amended.1, c7_ident_empty_amended.2 "a" (by decide)⟩

namespace Src

theorem mapM_option_mem {α β : Type} (f : α → Option β) :
    ∀ (l : List α) (out : List β), l.mapM f = some out → ∀ b ∈ out, ∃ a ∈ l, f a = some b := by
  intro l
  induction l with
  | nil =>
    intro out h b hb
    simp only [List.mapM_nil, pure, Option.some.injEq] at h
    subst h
    simp at hb
  | cons a l ih =>
    intro out h b hb
    rw [List.mapM_cons] at h
    simp only [bind, Option.bind_eq_some', pure, Option.some.injEq] at h
    obtain ⟨x, hx, xs, hxs, hout⟩ := h
    subst hout
    rcases List.mem_cons.mp hb with rfl | hb2
    · exact ⟨a, List.mem_cons_self a l, hx⟩
    · obtain ⟨a', ha', hfa'⟩ := ih xs hxs b hb2
      exact ⟨a', List.mem_cons_of_mem a ha', hfa'⟩

theorem mem_enumValuesAsStrings {s : String} {values : List OA.Value} :
    s ∈ enumValuesAsStrings values ↔ OA.Value.str s ∈ values := by
  unfold enumValuesAsStrings
  rw [List.mem_filterMap]
  constructor
  · rintro ⟨v, hv, hsome⟩
    cases v with
    | str t => simp only [Option.some.injEq] at hsome; subst hsome; exact hv
    | num n => simp at hsome
    | bool b => simp at hsome
    | null => simp at hsome
  · intro hv
    exact ⟨.str s, hv, rfl⟩

theorem enumValuesAsStrings_eq_nil {values : List OA.Value}
    (h : ∀ v ∈ values, v.isStr = false) : enumValuesAsStrings values = [] := by
  unfold enumValuesAsStrings
  rw [List.filterMap_eq_nil_iff]
  intro v hv
  cases v with
  | str t => exact absurd (h _ hv) (by simp [OA.Value.isStr])
  | num n => rfl
  | bool b => rfl
  | null => rfl

end Src

/-- C10: only string enum literals become cases of an emitted enum — every
case of `create_enum`'s output arises from a string literal of the schema's
`enum` list, a mixed list drops its non-string values with no warning and no
error (`create_enum` and `enum_values_as_strings` have no diagnostic or
error channel), and an enum whose literals are all non-strings is emitted
with zero cases. -/
theorem c10_enum_string_cases :
    (∀ (ns pn : String) (prop : OA.ResolvedSchema String) (r : String × Src.EnumDecl)
        (c : Src.EnumCase),
      Src.createEnum ns pn prop = some r → c ∈ r.2.cases →
      ∃ s : String, OA.Value.str s ∈ prop.schema.enum_ ∧ Src.mkEnumCase s = some c)
  ∧ (∀ (ns pn : String) (prop : OA.ResolvedSchema String) (r : String × Src.EnumDecl),
      (∀ v ∈ prop.schema.enum_, v.isStr = false) →
      Src.createEnum ns pn prop = some r → r.2.cases = [])
  ∧ Src.createEnum "ns" "color" c10exProp =
      some ("ns::Color", ⟨"Color", [⟨"A", some "a"⟩, ⟨"B", some "b"⟩]⟩)
  ∧ Src.createEnum "ns" "color" c10exPropNoStr = some ("ns::Color", ⟨"Color", []⟩) := by
  refine ⟨?_, ?_, by decide, by decide⟩
  · intro ns pn prop r c hcr hc
    unfold Src.createEnum at hcr
    simp only [bind, Option.bind_eq_some', Option.some.injEq] at hcr
    obtain ⟨idt, hidt, cases0, hcases, hr⟩ := hcr
    subst hr
    simp only at hc
    obtain ⟨s, hs, hmk⟩ := Src.mapM_option_mem _ _ _ hcases c hc
    exact ⟨s, Src.mem_enumValuesAsStrings.mp hs, hmk⟩
  · intro ns pn prop r hall hcr
    unfold Src.createEnum at hcr
    rw [Src.enumValuesAsStrings_eq_nil hall] at hcr
    simp only [bind, Option.bind_eq_some', Option.some.injEq, List.mapM_nil, pure] at hcr
    obtain ⟨idt, hidt, cases0, hcases, hr⟩ := hcr
    subst hr
    simp only
    cases hcases
    rfl

/-- Witness for C10: the all-non-string part applied at the concrete
example, with its hypotheses discharged by evaluation. -/
theorem c10_enum_string_cases_witness :
    (("ns::Color", (⟨"Color", []⟩ : Src.EnumDecl)) : String × Src.EnumDecl).2.cases =
      ([] : List Src.EnumCase) :=
  c10_enum_string_cases.2.1 "ns" "color" c10exPropNoStr
    ("ns::Color", ⟨"Color", []⟩) (by decide) (by decide)

namespace Src

theorem createFunctionReturnLoop_all_none :
    ∀ (rs : List (String × OA.Response String)), (∀ e ∈ rs, e.2.schema = none) →
      createFunctionReturnLoop rs = .ok (.result .unit) := by
  intro rs
  induction rs with
  | nil => intro _; rfl
  | cons e rest ih =>
    intro h
    obtain ⟨code, rsp⟩ := e
    have hnone : rsp.schema = none := h (code, rsp) (List.mem_cons_self _ _)
    simp only [createFunctionReturnLoop, hnone]
    exact ih (fun e he => h e (List.mem_cons_of_mem _ he))

theorem createFunctionReturnLoop_first :
    ∀ (pre post : List (String × OA.Response String)) (code : String)
      (rsp : OA.Response String) (s : OA.RefOrSchema String),
      (∀ e ∈ pre, e.2.schema = none) → rsp.schema = some s →
      createFunctionReturnLoop (pre ++ (code, rsp) :: post) =
        (getTypeNameForSchemaRef s).map .result := by
  intro pre
  induction pre with
  | nil =>
    intro post code rsp s _ hs
    simp only [List.nil_append, createFunctionReturnLoop, hs]
  | cons e rest ih =>
    intro post code rsp s hpre hs
    obtain ⟨c0, r0⟩ := e
    have hnone : r0.schema = none := hpre (c0, r0) (List.mem_cons_self _ _)
    simp only [List.cons_append, createFunctionReturnLoop, hnone]
    exact ih post code rsp s (fun e he => hpre e (List.mem_cons_of_mem _ he)) hs

end Src

/-- C4: the generated function's return type is `Result<T>` where `T` is the
mapped type of the first response (in document order) that has a schema; if
no response of the operation has a schema, it is `Result<()>`. -/
theorem c4_function_return (verb : OA.OperationVerb String) :
    ((∀ e ∈ verb.operation.responses, e.2.schema = none) →
      Src.createFunctionReturn verb = .ok (.result .unit))
  ∧ (∀ (pre post : List (String × OA.Response String)) (code : String)
        (rsp : OA.Response String) (s : OA.RefOrSchema String),
      verb.operation.responses = pre ++ (code, rsp) :: post →
      (∀ e ∈ pre, e.2.schema = none) → rsp.schema = some s →
      Src.createFunctionReturn verb = (Src.getTypeNameForSchemaRef s).map .result) := by
  constructor
  · intro h
    exact Src.createFunctionReturnLoop_all_none _ h
  · intro pre post code rsp s hsplit hpre hs
    unfold Src.createFunctionReturn
    rw [hsplit]
    exact Src.createFunctionReturnLoop_first pre post code rsp s hpre hs

/-- Witness for C4: the second part applied to a concrete operation whose
first response has no schema and whose second references `Pet`. -/
theorem c4_function_return_witness :
    Src.createFunctionReturn c4exVerb =
      (Src.getTypeNameForSchemaRef (.ref "#/definitions/Pet")).map .result :=
  (c4_function_return c4exVerb).2 [("200", ⟨none⟩)] [] "201" ⟨some (.ref "#/definitions/Pet")⟩
    (.ref "#/definitions/Pet") rfl (by simp) rfl

/-- C2: `resolve_schema_ref` looks up the key `(f, name)` where `f` is the
document path itself when the reference has no file part and the join of
both when it has one; a missing `name` fragment fails with
`NoNameInReference`; an absent key fails with `SchemaNotFound` carrying that
key; and success returns the schema with `ref_key` equal to the looked-up
key. -/
theorem c2_resolve_schema_ref (sp : Cg.Spec) (docPath : OA.Path) (r : OA.Reference)
    (q : OA.Path) (hfull : Cg.fullPath docPath r = .ok q) :
    (r.name = none → Cg.resolveSchemaRef sp docPath r = .error .noNameInReference)
  ∧ (∀ n, r.name = some n → lookupEntry sp.schemas ⟨q, n⟩ = none →
      Cg.resolveSchemaRef sp docPath r = .error (.schemaNotFound ⟨q, n⟩))
  ∧ (∀ n s, r.name = some n → lookupEntry sp.schemas ⟨q, n⟩ = some s →
      Cg.resolveSchemaRef sp docPath r = .ok ⟨some ⟨q, n⟩, s⟩)
  ∧ (r.file = none → q = docPath)
  ∧ (∀ f, r.file = some f → Cg.join docPath f = .ok q) := by
  refine ⟨?_, ?_, ?_, ?_, ?_⟩
  · intro hname
    simp [Cg.resolveSchemaRef, hfull, hname]
  · intro n hname hlook
    simp [Cg.resolveSchemaRef, hfull, hname, hlook]
  · intro n s hname hlook
    simp [Cg.resolveSchemaRef, hfull, hname, hlook]
  · intro hfile
    unfold Cg.fullPath at hfull
    simp only [hfile, Except.ok.injEq] at hfull
    exact hfull.symm
  · intro f hfile
    unfold Cg.fullPath at hfull
    simp only [hfile] at hfull
    cases hj : Cg.join docPath f with
    | error e => rw [hj] at hfull; simp at hfull
    | ok p =>
      rw [hj] at hfull
      simp only [Except.ok.injEq] at hfull
      rw [hfull]

/-- Witness for C2: resolving `#/definitions/X` against a one-schema spec
succeeds with the looked-up key. -/
theorem c2_resolve_schema_ref_witness :
    Cg.resolveSchemaRef c2exSpec ["t.json"] ⟨none, ["definitions"], some "X"⟩ =
      .ok ⟨some ⟨["t.json"], "X"⟩, stringSchema⟩ :=
  (c2_resolve_schema_ref c2exSpec ["t.json"] ⟨none, ["definitions"], some "X"⟩
    ["t.json"] rfl).2.2.1 "X" stringSchema rfl rfl

theorem mem_dedupInsert {α : Type} [DecidableEq α] (a c : α) (l : List α) :
    a ∈ dedupInsert l c ↔ a ∈ l ∨ a = c := by
  unfold dedupInsert
  by_cases h : c ∈ l
  · simp only [h, if_true]
    exact ⟨Or.inl, fun hh => hh.elim id (fun hh => hh ▸ h)⟩
  · simp [h]

theorem mem_foldl_dedupInsert {α : Type} [DecidableEq α] (a : α) :
    ∀ (l acc : List α), a ∈ l.foldl dedupInsert acc ↔ a ∈ acc ∨ a ∈ l := by
  intro l
  induction l with
  | nil => intro acc; simp
  | cons c rest ih =>
    intro acc
    simp only [List.foldl_cons]
    rw [ih, mem_dedupInsert]
    simp only [List.mem_cons]
    tauto

theorem mem_dedupList {α : Type} [DecidableEq α] (a : α) (l : List α) :
    a ∈ dedupList l ↔ a ∈ l := by
  unfold dedupList
  rw [mem_foldl_dedupInsert]
  simp

/-- C9: `get_ref_files` excludes every reference whose role is `Example`: a
file named only by `x-ms-examples` references is never in the referenced
file set, hence never added to the document graph, and its absence on disk
cannot fail a load (concretely, loading `a2.json` — whose only reference is
an example file absent from `exFS2` — succeeds with a one-document
graph). -/
theorem c9_example_refs_excluded :
    (∀ (api : OA.OpenAPI OA.Reference) (f : String),
      (∀ t ∈ Cg.getRefs api, t.isExample = false → (Cg.toReference t).file ≠ some f) →
      f ∉ Cg.getRefFiles api)
  ∧ c9exDocKeys = [["a2.json"]] := by
  constructor
  · intro api f h hmem
    unfold Cg.getRefFiles at hmem
    rw [mem_dedupList, List.mem_filterMap] at hmem
    obtain ⟨t, ht, hpick⟩ := hmem
    cases t with
    | exampleRef r => simp at hpick
    | pathItem r => exact h _ ht rfl hpick
    | parameter r => exact h _ ht rfl hpick
    | schema r => exact h _ ht rfl hpick
  · decide

/-- Witness for C9: the example-only file is not among `a2.json`'s
referenced files. -/
theorem c9_example_refs_excluded_witness :
    "ex.json" ∉ Cg.getRefFiles docExampleOnly :=
  c9_example_refs_excluded.1 docExampleOnly "ex.json" (by decide)

theorem mem_keys_insertEntry {κ β : Type} [DecidableEq κ] :
    ∀ (l : List (κ × β)) (k k' : κ) (b : β),
      k' ∈ (insertEntry l k b).map Prod.fst ↔ k' ∈ l.map Prod.fst ∨ k' = k := by
  intro l
  induction l with
  | nil => intro k k' b; simp [insertEntry]
  | cons e rest ih =>
    intro k k' b
    obtain ⟨k0, b0⟩ := e
    simp only [insertEntry]
    by_cases h : k0 = k
    · subst h
      rw [if_pos rfl]
      simp only [List.map_cons, List.mem_cons]
      tauto
    · simp only [if_neg h, List.map_cons, List.mem_cons]
      rw [ih]
      tauto

theorem lookupEntry_isSome_mem_keys {κ β : Type} [DecidableEq κ] :
    ∀ (l : List (κ × β)) (k : κ), (lookupEntry l k).isSome → k ∈ l.map Prod.fst := by
  intro l
  induction l with
  | nil => intro k h; simp [lookupEntry] at h
  | cons e rest ih =>
    intro k h
    obtain ⟨k0, b0⟩ := e
    simp only [lookupEntry] at h
    by_cases hk : k0 = k
    · simp [hk]
    · rw [if_neg hk] at h
      simp only [List.map_cons, List.mem_cons]
      exact Or.inr (ih k h)

namespace Cg

theorem loadRefs_mono (fs : OA.Path → Option (OA.OpenAPI OA.Reference)) (input : OA.Path) :
    ∀ (l : List String) (docs docs' : Docs) (p : OA.Path),
      loadRefs fs input l docs = .ok docs' → p ∈ docKeys docs → p ∈ docKeys docs' := by
  intro l
  induction l with
  | nil =>
    intro docs docs' p h hp
    simp only [loadRefs] at h
    cases h
    exact hp
  | cons f rest ih =>
    intro docs docs' p h hp
    simp only [loadRefs] at h
    cases hj : join input f with
    | error e => rw [hj] at h; cases h
    | ok q =>
      rw [hj] at h
      by_cases hq : (lookupEntry docs q).isSome
      · simp only [hq, if_true] at h
        exact ih docs docs' p h hp
      · simp only [hq, if_false] at h
        cases hparse : openapiParse fs q with
        | error e => rw [hparse] at h; cases h
        | ok d =>
          rw [hparse] at h
          refine ih _ docs' p h ?_
          unfold docKeys at hp ⊢
          rw [List.map_append]
          exact List.mem_append_left _ hp

theorem loadRefs_adds (fs : OA.Path → Option (OA.OpenAPI OA.Reference)) (input : OA.Path) :
    ∀ (l : List String) (docs docs' : Docs),
      loadRefs fs input l docs = .ok docs' →
      ∀ f ∈ l, ∀ q, join input f = .ok q → q ∈ docKeys docs' := by
  intro l
  induction l with
  | nil => intro docs docs' _ f hf; simp at hf
  | cons f0 rest ih =>
    intro docs docs' h f hf q hjoin
    simp only [loadRefs] at h
    cases hj : join input f0 with
    | error e => rw [hj] at h; cases h
    | ok q0 =>
      rw [hj] at h
      rcases List.mem_cons.mp hf with rfl | hfr
      · -- f = f0, so q = q0
        rw [hjoin] at hj
        cases hj
        by_cases hq : (lookupEntry docs q).isSome
        · simp only [hq, if_true] at h
          exact loadRefs_mono fs input rest docs docs' q h
            (lookupEntry_isSome_mem_keys docs q hq)
        · simp only [hq, if_false] at h
          cases hparse : openapiParse fs q with
          | error e => rw [hparse] at h; cases h
          | ok d =>
            rw [hparse] at h
            refine loadRefs_mono fs input rest _ docs' q h ?_
            unfold docKeys
            rw [List.map_append]
            exact List.mem_append_right _ (by simp)
      · by_cases hq : (lookupEntry docs q0).isSome
        · simp only [hq, if_true] at h
          exact ih docs docs' h f hfr q hjoin
        · simp only [hq, if_false] at h
          cases hparse : openapiParse fs q0 with
          | error e => rw [hparse] at h; cases h
          | ok d =>
            rw [hparse] at h
            exact ih _ docs' h f hfr q hjoin

theorem loadInputs_mono (fs : OA.Path → Option (OA.OpenAPI OA.Reference)) :
    ∀ (inputs : List OA.Path) (docs docs' : Docs) (p : OA.Path),
      loadInputs fs inputs docs = .ok docs' → p ∈ docKeys docs → p ∈ docKeys docs' := by
  intro inputs
  induction inputs with
  | nil =>
    intro docs docs' p h hp
    simp only [loadInputs] at h
    cases h
    exact hp
  | cons i rest ih =>
    intro docs docs' p h hp
    simp only [loadInputs] at h
    cases hparse : openapiParse fs i with
    | error e => rw [hparse] at h; cases h
    | ok d =>
      simp only [hparse] at h
      cases hload : loadRefs fs i (getRefFiles d) (insertEntry docs i d) with
      | error e => rw [hload] at h; cases h
      | ok docs1 =>
        simp only [hload] at h
        refine ih docs1 docs' p h ?_
        refine loadRefs_mono fs i _ _ docs1 p hload ?_
        exact (mem_keys_insertEntry docs i p d).mpr (Or.inl hp)

theorem loadInputs_spec (fs : OA.Path → Option (OA.OpenAPI OA.Reference)) :
    ∀ (inputs : List OA.Path) (docs docs' : Docs),
      loadInputs fs inputs docs = .ok docs' →
      ∀ i ∈ inputs, ∀ d, fs i = some d →
        i ∈ docKeys docs' ∧
          ∀ f ∈ getRefFiles d, ∀ q, join i f = .ok q → q ∈ docKeys docs' := by
  intro inputs
  induction inputs with
  | nil => intro docs docs' _ i hi; simp at hi
  | cons i0 rest ih =>
    intro docs docs' h i hi d hd
    simp only [loadInputs] at h
    cases hparse : openapiParse fs i0 with
    | error e => rw [hparse] at h; cases h
    | ok d0 =>
      simp only [hparse] at h
      cases hload : loadRefs fs i0 (getRefFiles d0) (insertEntry docs i0 d0) with
      | error e => rw [hload] at h; cases h
      | ok docs1 =>
        simp only [hload] at h
        rcases List.mem_cons.mp hi with rfl | hir
        · -- i = i0; openapiParse ok means fs i = some d0, so d = d0
          have hd0 : d = d0 := by
            unfold openapiParse at hparse
            rw [hd] at hparse
            cases hparse
            rfl
          subst hd0
          constructor
          · refine loadInputs_mono fs rest docs1 docs' i h ?_
            refine loadRefs_mono fs i _ _ docs1 i hload ?_
            exact (mem_keys_insertEntry docs i i d).mpr (Or.inr rfl)
          · intro f hf q hjoin
            refine loadInputs_mono fs rest docs1 docs' q h ?_
            exact loadRefs_adds fs i _ _ docs1 hload f hf q hjoin
        · exact ih docs1 docs' h i hir d hd

end Cg

/-- C1 (amended): after `Spec::read_files` succeeds, the document graph
contains every input file and every file directly referenced (by a
non-example cross-file `$ref`, joined against that input's path) from an
input document.  The closure is one level deep only: referenced documents'
own cross-file `$ref`s are not followed (see the counterexample). -/
theorem c1_read_files_direct_refs (fs : OA.Path → Option (OA.OpenAPI OA.Reference))
    (inputs : List OA.Path) (sp : Cg.Spec) (i : OA.Path) (d : OA.OpenAPI OA.Reference)
    (hok : Cg.readFiles fs inputs = .ok sp) (hi : i ∈ inputs) (hd : fs i = some d) :
    i ∈ Cg.docKeys sp.docs ∧
      ∀ f ∈ Cg.getRefFiles d, ∀ q, Cg.join i f = .ok q → q ∈ Cg.docKeys sp.docs := by
  unfold Cg.readFiles at hok
  cases hload : Cg.loadInputs fs inputs [] with
  | error e => rw [hload] at hok; cases hok
  | ok docs =>
    rw [hload] at hok
    cases hok
    exact Cg.loadInputs_spec fs inputs [] docs hload i hi d hd

/-- Witness for C1's amended theorem at the concrete two-document run. -/
theorem c1_read_files_direct_refs_witness :
    ["a.json"] ∈ c1exDocKeys ∧ ["b.json"] ∈ c1exDocKeys := by
  obtain ⟨sp, hok⟩ : ∃ sp, Cg.readFiles exFS1 [["a.json"]] = .ok sp := ⟨_, rfl⟩
  have h := c1_read_files_direct_refs exFS1 [["a.json"]] sp ["a.json"] docA hok
    (by decide) rfl
  have hkeys : c1exDocKeys = Cg.docKeys sp.docs := by
    unfold c1exDocKeys
    rw [hok]
  rw [hkeys]
  exact ⟨h.1, h.2 "b.json" (by decide) ["b.json"] rfl⟩

/-- Counterexample for C1: the graph is not transitively closed under
`$ref`-reachability — `b.json` is loaded because `a.json` references it,
`b.json` itself references `c.json`, `c.json` is present on disk and its
path joins cleanly, yet `c.json` is not in the document graph. -/
theorem c1_read_files_not_transitive :
    c1exDocKeys = [["a.json"], ["b.json"]]
  ∧ exFS1 ["b.json"] = some docB
  ∧ exFS1 ["c.json"] = some docC
  ∧ "c.json" ∈ Cg.getRefFiles docB
  ∧ Cg.join ["b.json"] "c.json" = .ok ["c.json"]
  ∧ ["c.json"] ∉ c1exDocKeys :=
  ⟨by decide, rfl, rfl, by decide, rfl, by decide⟩

theorem lookupEntry_insertEntry_self {κ β : Type} [DecidableEq κ] :
    ∀ (l : List (κ × β)) (k : κ) (b : β), lookupEntry (insertEntry l k b) k = some b := by
  intro l
  induction l with
  | nil => intro k b; simp [insertEntry, lookupEntry]
  | cons e rest ih =>
    intro k b
    obtain ⟨k0, b0⟩ := e
    simp only [insertEntry]
    by_cases h : k0 = k
    · subst h
      rw [if_pos rfl]
      simp [lookupEntry]
    · rw [if_neg h]
      simp only [lookupEntry, if_neg h]
      exact ih k b

theorem lookupEntry_insertEntry_ne {κ β : Type} [DecidableEq κ] :
    ∀ (l : List (κ × β)) (k : κ) (b : β) (k' : κ), k ≠ k' →
      lookupEntry (insertEntry l k b) k' = lookupEntry l k' := by
  intro l
  induction l with
  | nil => intro k b k' hne; simp [insertEntry, lookupEntry, hne]
  | cons e rest ih =>
    intro k b k' hne
    obtain ⟨k0, b0⟩ := e
    simp only [insertEntry]
    by_cases h : k0 = k
    · subst h
      rw [if_pos rfl]
      simp only [lookupEntry]
      by_cases h' : k0 = k'
      · exact absurd h' hne
      · simp [h']
    · rw [if_neg h]
      simp only [lookupEntry]
      by_cases h' : k0 = k'
      · simp [h']
      · simp only [if_neg h']
        exact ih k b k' hne

namespace Src

theorem createModelsLoop_fresh {ε β : Type} (emit : OA.RefKey → OA.ResolvedSchema String → Except ε β)
    (hemit : ∀ k s, ∃ b, emit k s = .ok b) (N : String) :
    ∀ (pre rest : List (OA.RefKey × OA.ResolvedSchema String))
      (names : List (String × OA.Path)) (ws : List DuplicateWarning)
      (ds : List (OA.RefKey × β)),
      (∀ e ∈ pre, e.1.name ≠ N) →
      ∃ names' ws' ds',
        createModelsLoop emit (pre ++ rest) names ws ds =
          createModelsLoop emit rest names' ws' ds'
        ∧ lookupEntry names' N = lookupEntry names N
        ∧ ds'.filter (fun d => d.1.name == N) = ds.filter (fun d => d.1.name == N) := by
  intro pre
  induction pre with
  | nil =>
    intro rest names ws ds _
    exact ⟨names, ws, ds, rfl, rfl, rfl⟩
  | cons e pre' ih =>
    intro rest names ws ds hfresh
    obtain ⟨k, s⟩ := e
    have hkN : k.name ≠ N := hfresh (k, s) (List.mem_cons_self _ _)
    have hfresh' : ∀ e ∈ pre', e.1.name ≠ N := fun e he => hfresh e (List.mem_cons_of_mem _ he)
    cases hl : lookupEntry names k.name with
    | some first =>
      have hstep : createModelsLoop emit (((k, s) :: pre') ++ rest) names ws ds =
          createModelsLoop emit (pre' ++ rest) (insertEntry names k.name k.file)
            (ws ++ [⟨k.name, first, k.file⟩]) ds := by
        simp only [List.cons_append, createModelsLoop, hl, List.append_eq]
      obtain ⟨names', ws', ds', hrec, hlook, hfilter⟩ :=
        ih rest (insertEntry names k.name k.file) (ws ++ [⟨k.name, first, k.file⟩]) ds hfresh'
      refine ⟨names', ws', ds', hstep.trans hrec, ?_, hfilter⟩
      rw [hlook, lookupEntry_insertEntry_ne names k.name k.file N hkN]
    | none =>
      obtain ⟨b, hb⟩ := hemit k s
      have hstep : createModelsLoop emit (((k, s) :: pre') ++ rest) names ws ds =
          createModelsLoop emit (pre' ++ rest) (insertEntry names k.name k.file)
            ws (ds ++ [(k, b)]) := by
        simp only [List.cons_append, createModelsLoop, hl, hb, List.append_eq]
      obtain ⟨names', ws', ds', hrec, hlook, hfilter⟩ :=
        ih rest (insertEntry names k.name k.file) ws (ds ++ [(k, b)]) hfresh'
      refine ⟨names', ws', ds', hstep.trans hrec, ?_, ?_⟩
      · rw [hlook, lookupEntry_insertEntry_ne names k.name k.file N hkN]
      · rw [hfilter, List.filter_append]
        have : ((k, b) :: []).filter (fun d => d.1.name == N) = [] := by
          simp [List.filter_cons, beq_eq_false_iff_ne.mpr hkN]
        rw [this, List.append_nil]

theorem createModelsLoop_present {ε β : Type} (emit : OA.RefKey → OA.ResolvedSchema String → Except ε β)
    (hemit : ∀ k s, ∃ b, emit k s = .ok b) (N : String) :
    ∀ (l : List (OA.RefKey × OA.ResolvedSchema String))
      (names : List (String × OA.Path)) (ws : List DuplicateWarning)
      (ds : List (OA.RefKey × β)),
      (lookupEntry names N).isSome →
      ∃ ws' ds',
        createModelsLoop emit l names ws ds = .ok (ws', ds')
        ∧ ds'.filter (fun d => d.1.name == N) = ds.filter (fun d => d.1.name == N)
        ∧ ∀ w ∈ ws, w ∈ ws' := by
  intro l
  induction l with
  | nil =>
    intro names ws ds _
    exact ⟨ws, ds, rfl, rfl, fun w hw => hw⟩
  | cons e rest ih =>
    intro names ws ds hsome
    obtain ⟨k, s⟩ := e
    cases hl : lookupEntry names k.name with
    | some first =>
      have hstep : createModelsLoop emit ((k, s) :: rest) names ws ds =
          createModelsLoop emit rest (insertEntry names k.name k.file)
            (ws ++ [⟨k.name, first, k.file⟩]) ds := by
        simp only [createModelsLoop, hl]
      have hsome' : (lookupEntry (insertEntry names k.name k.file) N).isSome := by
        by_cases hkN : k.name = N
        · subst hkN
          rw [lookupEntry_insertEntry_self]
          rfl
        · rw [lookupEntry_insertEntry_ne names k.name k.file N hkN]
          exact hsome
      obtain ⟨ws', ds', hrec, hfilter, hmem⟩ :=
        ih (insertEntry names k.name k.file) (ws ++ [⟨k.name, first, k.file⟩]) ds hsome'
      refine ⟨ws', ds', hstep.trans hrec, hfilter, ?_⟩
      intro w hw
      exact hmem w (List.mem_append_left _ hw)
    | none =>
      have hkN : k.name ≠ N := by
        rintro rfl
        rw [hl] at hsome
        simp at hsome
      obtain ⟨b, hb⟩ := hemit k s
      have hstep : createModelsLoop emit ((k, s) :: rest) names ws ds =
          createModelsLoop emit rest (insertEntry names k.name k.file) ws (ds ++ [(k, b)]) := by
        simp only [createModelsLoop, hl, hb]
      have hsome' : (lookupEntry (insertEntry names k.name k.file) N).isSome := by
        rw [lookupEntry_insertEntry_ne names k.name k.file N hkN]
        exact hsome
      obtain ⟨ws', ds', hrec, hfilter, hmem⟩ :=
        ih (insertEntry names k.name k.file) ws (ds ++ [(k, b)]) hsome'
      refine ⟨ws', ds', hstep.trans hrec, ?_, hmem⟩
      rw [hfilter, List.filter_append]
      have : ((k, b) :: []).filter (fun d => d.1.name == N) = [] := by
        simp [List.filter_cons, beq_eq_false_iff_ne.mpr hkN]
      rw [this, List.append_nil]

end Src

/-- C8: in `create_models`, whenever two schemas in the collected set share
a name while coming from two different files, a warning naming both files is
recorded, the declaration emitted for that name is the one from the schema
discovered first, the later duplicate produces no declaration, and the pass
still completes successfully (for any emitter that does not itself fail). -/
theorem c8_create_models_duplicate_names {ε β : Type}
    (emit : OA.RefKey → OA.ResolvedSchema String → Except ε β)
    (hemit : ∀ k s, ∃ b, emit k s = .ok b)
    (pre mid post : List (OA.RefKey × OA.ResolvedSchema String))
    (k1 k2 : OA.RefKey) (s1 s2 : OA.ResolvedSchema String)
    (hname : k2.name = k1.name) (_hfile : k1.file ≠ k2.file)
    (hfresh : ∀ e ∈ pre ++ mid, e.1.name ≠ k1.name) :
    ∃ ws ds b1,
      Src.createModelsDedup emit (pre ++ (k1, s1) :: mid ++ (k2, s2) :: post) = .ok (ws, ds)
      ∧ (⟨k1.name, k1.file, k2.file⟩ : Src.DuplicateWarning) ∈ ws
      ∧ emit k1 s1 = .ok b1
      ∧ ds.filter (fun d => d.1.name == k1.name) = [(k1, b1)] := by
  unfold Src.createModelsDedup
  -- walk over `pre`, which never touches `k1.name`
  obtain ⟨names1, ws1, ds1, hstep1, hlook1, hfilter1⟩ :=
    Src.createModelsLoop_fresh emit hemit k1.name pre ((k1, s1) :: (mid ++ (k2, s2) :: post))
      [] [] [] (fun e he => hfresh e (List.mem_append_left _ he))
  rw [show pre ++ (k1, s1) :: mid ++ (k2, s2) :: post =
      pre ++ ((k1, s1) :: (mid ++ (k2, s2) :: post)) by simp]
  rw [hstep1]
  have hlook1' : lookupEntry names1 k1.name = none := by
    rw [hlook1]; rfl
  have hfilter1' : ds1.filter (fun d => d.1.name == k1.name) = [] := by
    rw [hfilter1]; rfl
  -- the first occurrence emits a declaration
  obtain ⟨b1, hb1⟩ := hemit k1 s1
  have hstepk1 : Src.createModelsLoop emit ((k1, s1) :: (mid ++ (k2, s2) :: post)) names1 ws1 ds1 =
      Src.createModelsLoop emit (mid ++ (k2, s2) :: post)
        (insertEntry names1 k1.name k1.file) ws1 (ds1 ++ [(k1, b1)]) := by
    simp only [Src.createModelsLoop, hlook1', hb1]
  rw [hstepk1]
  -- walk over `mid`, which never touches `k1.name`
  obtain ⟨names2, ws2, ds2, hstep2, hlook2, hfilter2⟩ :=
    Src.createModelsLoop_fresh emit hemit k1.name mid ((k2, s2) :: post)
      (insertEntry names1 k1.name k1.file) ws1 (ds1 ++ [(k1, b1)])
      (fun e he => hfresh e (List.mem_append_right _ he))
  rw [hstep2]
  have hlook2' : lookupEntry names2 k1.name = some k1.file := by
    rw [hlook2, lookupEntry_insertEntry_self]
  have hfilter2' : ds2.filter (fun d => d.1.name == k1.name) = [(k1, b1)] := by
    rw [hfilter2, List.filter_append, hfilter1']
    simp [List.filter_cons]
  -- the duplicate warns and is skipped
  have hlookk2 : lookupEntry names2 k2.name = some k1.file := by
    rw [hname]; exact hlook2'
  have hstepk2 : Src.createModelsLoop emit ((k2, s2) :: post) names2 ws2 ds2 =
      Src.createModelsLoop emit post (insertEntry names2 k2.name k2.file)
        (ws2 ++ [⟨k2.name, k1.file, k2.file⟩]) ds2 := by
    simp only [Src.createModelsLoop, hlookk2]
  rw [hstepk2]
  -- walk over `post`, where `k1.name` stays present
  have hsome3 : (lookupEntry (insertEntry names2 k2.name k2.file) k1.name).isSome := by
    by_cases hk : k2.name = k1.name
    · rw [← hk, lookupEntry_insertEntry_self]; rfl
    · rw [lookupEntry_insertEntry_ne names2 k2.name k2.file k1.name hk, hlook2']; rfl
  obtain ⟨ws', ds', hok, hfilter3, hwmem⟩ :=
    Src.createModelsLoop_present emit hemit k1.name post
      (insertEntry names2 k2.name k2.file) (ws2 ++ [⟨k2.name, k1.file, k2.file⟩]) ds2 hsome3
  refine ⟨ws', ds', b1, hok, ?_, hb1, ?_⟩
  · have : (⟨k2.name, k1.file, k2.file⟩ : Src.DuplicateWarning) ∈
        ws2 ++ [⟨k2.name, k1.file, k2.file⟩] :=
      List.mem_append_right _ (List.mem_singleton.mpr rfl)
    have hmem := hwmem _ this
    rw [hname] at hmem
    exact hmem
  · rw [hfilter3, hfilter2']

/-- Witness for C8: two same-named schemas from `f1.json` and `f2.json`
with a trivially successful emitter — the pass completes successfully. -/
theorem c8_create_models_duplicate_names_witness :
    Src.createModelsDedup c8emit
        [(⟨["f1.json"], "Dup"⟩, c8exSchema), (⟨["f2.json"], "Dup"⟩, c8exSchema)] ≠
      .error () := by
  obtain ⟨ws, ds, b1, hok, -, -, -⟩ :=
    c8_create_models_duplicate_names c8emit (fun _ _ => ⟨(), rfl⟩) [] [] []
      ⟨["f1.json"], "Dup"⟩ ⟨["f2.json"], "Dup"⟩ c8exSchema c8exSchema rfl
      (by decide) (by simp)
  rw [show ([(⟨["f1.json"], "Dup"⟩, c8exSchema), (⟨["f2.json"], "Dup"⟩, c8exSchema)] :
      List (OA.RefKey × OA.ResolvedSchema String)) =
      [] ++ (⟨["f1.json"], "Dup"⟩, c8exSchema) :: [] ++ (⟨["f2.json"], "Dup"⟩, c8exSchema) :: []
    from rfl] at *
  rw [hok]
  simp
